import Mathlib

/-!
Verification development for the bourse_bot repository.

The repository has two Python source files:
  * `notifier_bot.py` — scrapes a synthesis page, extracts per-asset
    recommendation signals, caches them, formats and splits chat messages;
  * `scraper/scraper.py` — a companion pipeline that upserts company,
    shareholder and financial records into a document store.

Below, each Python function that the claims depend on is translated into an
executable Lean definition over an explicit HTML-tree model (a shallow
embedding of the BeautifulSoup operations actually used).  Python `str` is
modelled by `String` (a sequence of code points), Python `float` by `Rat`
(all numbers involved come from decimal literals), and Python `dict`-based
records by structures.
-/

/-! ## String helpers mirroring the Python primitives used -/

/-- Whitespace characters recognised by Python `str.strip` / `\s` (ASCII part). -/
def isPySpace (c : Char) : Bool :=
  c == ' ' || c == '\t' || c == '\n' || c == '\r' || c == '\x0b' || c == '\x0c'

/-- Python `str.strip()`: drop leading and trailing whitespace. -/
def pyStrip (s : String) : String :=
  String.mk (((s.toList.dropWhile isPySpace).reverse.dropWhile isPySpace).reverse)

/-- Python `str.upper()` (ASCII letters, which is all the scraped codes use). -/
def pyUpper (s : String) : String :=
  String.mk (s.toList.map Char.toUpper)

/-- Splitting a character list at every `/`, like Python `s.split("/")`:
the result is never empty and keeps empty segments. -/
def splitSlash : List Char → List (List Char)
  | [] => [[]]
  | c :: cs =>
    match splitSlash cs with
    | [] => [[]]
    | h :: t => if c == '/' then [] :: h :: t else (c :: h) :: t

/-- Python `s.split("/")[-1]`: last segment of a `/`-separated string. -/
def lastSeg (s : String) : String :=
  String.mk ((splitSlash s.toList).getLastD [])

/-- Python `s.startswith(pre)`. -/
def pyStartsWith (s pre : String) : Bool :=
  pre.toList.isPrefixOf s.toList

/-- Concatenation of a list of strings (Python `"".join`). -/
def joinAll : List String → String
  | [] => ""
  | s :: rest => s ++ joinAll rest

/-- Python `sep.join(strings)`. -/
def joinSep (sep : String) : List String → String
  | [] => ""
  | [s] => s
  | s :: rest => s ++ sep ++ joinSep sep rest

/-! ## HTML node model (the fragment of BeautifulSoup the code uses) -/

/-- A parsed HTML node: an element with a tag, attributes and children, or a
text node.  The document root plays the role of the BeautifulSoup `soup`
object (tag `[document]`). -/
inductive Node where
  | text (s : String)
  | elem (tag : String) (attrs : List (String × String)) (children : List Node)
deriving Repr

/-- Children of a node (empty for text nodes). -/
def childrenOf : Node → List Node
  | Node.text _ => []
  | Node.elem _ _ cs => cs

/-- Tag of an element node. -/
def tagOf : Node → Option String
  | Node.text _ => none
  | Node.elem t _ _ => some t

/-- Attribute lookup, like `tag.get(k)` returning `None` when absent. -/
def attrOf (n : Node) (k : String) : Option String :=
  match n with
  | Node.text _ => none
  | Node.elem _ ats _ => ats.lookup k

/-- Whether a node is an element with the given tag. -/
def isTag (n : Node) (t : String) : Bool :=
  match n with
  | Node.text _ => false
  | Node.elem u _ _ => u == t

/-- Whether a node is an element (a BeautifulSoup `Tag`, not a string). -/
def isElem : Node → Bool
  | Node.text _ => false
  | Node.elem _ _ _ => true

/-- A position in the document tree: the list of child indices from the root. -/
abbrev HPath := List Nat

/-- Node located at a path, if the path is valid. -/
def nodeAt : Node → HPath → Option Node
  | n, [] => some n
  | n, i :: p =>
    match (childrenOf n)[i]? with
    | some c => nodeAt c p
    | none => none

mutual
/-- All nodes of a subtree in document (pre-)order, with their paths relative
to the subtree root.  This is the traversal order BeautifulSoup's `find_all`
and `next_elements` use. -/
def preorder : Node → List (HPath × Node)
  | Node.text s => [([], Node.text s)]
  | Node.elem t ats cs => ([], Node.elem t ats cs) :: preorderList 0 cs

/-- Pre-order traversal of a list of siblings starting at child index `i`. -/
def preorderList : Nat → List Node → List (HPath × Node)
  | _, [] => []
  | i, c :: cs =>
    (preorder c).map (fun pn => (i :: pn.1, pn.2)) ++ preorderList (i + 1) cs
end

mutual
/-- The raw text pieces of a subtree in document order (BeautifulSoup
`d.strings`): used for `tag.text` and `tag.get_text`. -/
def textOf : Node → List String
  | Node.text s => [s]
  | Node.elem _ _ cs => textListOf cs

/-- Text pieces of a list of siblings in order. -/
def textListOf : List Node → List String
  | [] => []
  | c :: cs => textOf c ++ textListOf cs
end

/-- BeautifulSoup `tag.get_text(" ", strip=True)`: strip every string, skip
the ones that become empty, and join with a single space. -/
def getTextSep (n : Node) : String :=
  joinSep " " (((textOf n).map pyStrip).filter (fun s => s != ""))

/-- Proper ancestors of a path, nearest first (the walk `find_parent` does). -/
def ancestorsOf (p : HPath) : List HPath :=
  (List.range p.length).reverse.map (fun k => p.take k)

/-- BeautifulSoup `a.find_parent("tr")`: the nearest proper ancestor that is a
`tr` element, as a path. -/
def findParentTr (root : Node) (p : HPath) : Option HPath :=
  (ancestorsOf p).find? (fun q =>
    match nodeAt root q with
    | some n => isTag n "tr"
    | none => false)

/-- Strict descendants of a node in document order (what `ctx.find_all(...)`
iterates over). -/
def descendantNodes (n : Node) : List Node :=
  ((preorder n).drop 1).map (fun pn => pn.2)

/-- Element siblings strictly after the node at `p` inside its parent, in
order.  `find_next_sibling()` / `find_next_siblings(...)` match only `Tag`
siblings, so text siblings are dropped. -/
def elemSiblingsAfter (root : Node) (p : HPath) : List Node :=
  match p.getLast?, nodeAt root (p.dropLast) with
  | some i, some par => ((childrenOf par).drop (i + 1)).filter isElem
  | _, _ => []

/-- All nodes strictly after the node at `p` in document order over the whole
tree (BeautifulSoup `next_elements`, which enters the node's own subtree
first). -/
def afterNodes (root : Node) (p : HPath) : List Node :=
  (((preorder root).dropWhile (fun pn => pn.1 != p)).drop 1).map (fun pn => pn.2)

/-! ## The synthesis extractor (`notifier_bot.parse_synthese`) -/

/-- The icon-filename to action mapping `ACTION_MAP` of `notifier_bot.py`. -/
def ACTION_MAP : List (String × String) :=
  [("f_1b.png", "BUY"), ("f_5b.png", "SELL"), ("f_3b.png", "KEEP"), ("f_4b.png", "TAKE PROFIT")]

/-- One extracted asset record, as built in `parse_synthese`. -/
structure Signal where
  code : String
  name : String
  action : String
  potential : Rat
deriving Repr, DecidableEq

/-- Maximal digit run at the front of a character list, with the rest. -/
def digitSpan (cs : List Char) : List Char × List Char :=
  (cs.takeWhile Char.isDigit, cs.dropWhile Char.isDigit)

/-- Digits to a natural number, most significant first. -/
def digitsToNat (cs : List Char) : Nat :=
  cs.foldl (fun n c => 10 * n + (c.toNat - '0'.toNat)) 0

/-- Matching of the pattern `([+-]?\d+(?:[.,]\d+)?)\s*%` at the start of a
character list, returning the text of group 1 on success.  Greedy matching
needs no backtracking for this pattern: after giving back a digit the next
character is a digit again, which can never start `[.,]`, `\s*` progress or
`%`. -/
def matchAt (cs : List Char) : Option (List Char) :=
  let signRest : List Char × List Char :=
    match cs with
    | c :: rest => if c == '+' || c == '-' then ([c], rest) else ([], cs)
    | [] => ([], [])
  let d1 := digitSpan signRest.2
  if d1.1.isEmpty then none
  else
    let fracRest : List Char × List Char :=
      match d1.2 with
      | c :: rest =>
        if c == '.' || c == ',' then
          let d2 := digitSpan rest
          if d2.1.isEmpty then ([], d1.2) else (c :: d2.1, d2.2)
        else ([], d1.2)
      | [] => ([], d1.2)
    match fracRest.2.dropWhile isPySpace with
    | '%' :: _ => some (signRest.1 ++ d1.1 ++ fracRest.1)
    | _ => none

/-- Leftmost match of `POTENTIAL_RE` (Python `re.search` scans positions left
to right and returns the first that matches). -/
def searchFrom : List Char → Option (List Char)
  | [] => none
  | c :: rest =>
    match matchAt (c :: rest) with
    | some g => some g
    | none => searchFrom rest

/-- Numeric value of an unsigned decimal literal `\d+(\.\d+)?`. -/
def parseUnsigned (cs : List Char) : Rat :=
  let ip := digitSpan cs
  match ip.2 with
  | '.' :: fr =>
    let fp := digitSpan fr
    (digitsToNat ip.1 : Rat) + (digitsToNat fp.1 : Rat) / ((10 : Rat) ^ fp.1.length)
  | _ => (digitsToNat ip.1 : Rat)

/-- Python `float(...)` on the strings group 1 can produce (after the comma
is replaced by a dot): sign followed by an unsigned decimal literal. -/
def parseDec (cs : List Char) : Rat :=
  match cs with
  | '+' :: rest => parseUnsigned rest
  | '-' :: rest => - parseUnsigned rest
  | _ => parseUnsigned cs

/-- Lines 123-129 of `notifier_bot.py`: search the text area with
`POTENTIAL_RE`; on a match, replace `,` by `.` and parse the number,
otherwise keep the default `0.0`.  (On the language matched by group 1 the
`float` conversion always succeeds, so the `except` arm assigning `0.0`
is unreachable; the function is total either way.) -/
def findPotential (area : String) : Rat :=
  match searchFrom area.toList with
  | none => 0
  | some g => parseDec (g.map (fun c => if c == ',' then '.' else c))

/-- Candidate links, lines 74 of `notifier_bot.py`:
`soup.find_all("a", href=lambda x: x and x.startswith("conseil/"))` —
all anchor descendants whose `href` attribute is present, non-empty and
starts with `conseil/`, in document order. -/
def candidates (root : Node) : List (HPath × Node) :=
  ((preorder root).drop 1).filter (fun pn =>
    isTag pn.2 "a" &&
      (match attrOf pn.2 "href" with
       | some v => pyStartsWith v "conseil/"
       | none => false))

/-- Line 78-79: `href = a.get("href", "")`. -/
def anchorHref (a : Node) : String := (attrOf a "href").getD ""

/-- Line 79: `code = href.split("/")[-1].strip().upper()`. -/
def anchorCode (a : Node) : String := pyUpper (pyStrip (lastSeg (anchorHref a)))

/-- Line 80: `name = a.text.strip()`. -/
def anchorName (a : Node) : String := pyStrip (joinAll (textOf a))

/-- Line 81: the deduplication key `(code, name)`. -/
def anchorKey (a : Node) : String × String := (anchorCode a, anchorName a)

/-- Lines 86-87: the context node — the enclosing `tr` if there is one,
otherwise the link's parent. -/
def contextHPath (root : Node) (p : HPath) : HPath :=
  (findParentTr root p).getD p.dropLast

/-- Lines 91-105 of `notifier_bot.py`: find nearby images to infer the
action.  `imgs` is the `find_all("img")` of the context; if empty, the `img`
element siblings following the link; if still empty, the first 6 `img`
elements after the link in document order.  The first image whose `src`
filename is a key of `ACTION_MAP` decides; images with an empty or missing
`src` are skipped. -/
def anchorAction (root : Node) (p : HPath) : Option String :=
  let ctx := (nodeAt root (contextHPath root p)).getD (Node.elem "" [] [])
  let imgs1 := (descendantNodes ctx).filter (fun n => isTag n "img")
  let imgs2 :=
    if imgs1.isEmpty then (elemSiblingsAfter root p).filter (fun n => isTag n "img")
    else imgs1
  let imgs3 :=
    if imgs2.isEmpty then ((afterNodes root p).filter (fun n => isTag n "img")).take 6
    else imgs2
  imgs3.findSome? (fun img =>
    let src := (attrOf img "src").getD ""
    if src == "" then none else List.lookup (lastSeg src) ACTION_MAP)

/-- Lines 107-121: the text area searched for the potential.  With a `tr`
context: the space-joined `get_text(" ", strip=True)` of all `td`/`th`
descendants of the row.  Otherwise: the parent's text followed by the text
of up to 6 element siblings after the link, space-joined.  (The guard
`if parent:` of line 113 always holds: the parent contains the link.) -/
def textArea (root : Node) (p : HPath) : String :=
  match findParentTr root p with
  | some trp =>
    let trN := (nodeAt root trp).getD (Node.elem "" [] [])
    joinSep " "
      (((descendantNodes trN).filter (fun n => isTag n "td" || isTag n "th")).map getTextSep)
  | none =>
    let par := (nodeAt root p.dropLast).getD (Node.elem "" [] [])
    joinSep " "
      (getTextSep par :: ((elemSiblingsAfter root p).take 6).map getTextSep)

/-- The potential of the candidate at `p` (lines 107-129). -/
def anchorPotential (root : Node) (p : HPath) : Rat :=
  findPotential (textArea root p)

/-- The main candidate loop of `parse_synthese` (lines 77-142), carrying the
`seen` set of `(code, name)` keys.  A candidate whose key was already seen is
skipped; the key is recorded before the action search; a candidate without a
recognised action icon is skipped; otherwise the record is emitted.  (The
source computes `potential` before testing `action`; both are pure, so the
value is unchanged.) -/
def processAnchors (root : Node) :
    List (HPath × Node) → List (String × String) → List Signal
  | [], _ => []
  | (p, a) :: rest, seen =>
    if anchorKey a ∈ seen then processAnchors root rest seen
    else
      match anchorAction root p with
      | none => processAnchors root rest (anchorKey a :: seen)
      | some act =>
        { code := anchorCode a, name := anchorName a, action := act,
          potential := anchorPotential root p } ::
          processAnchors root rest (anchorKey a :: seen)

/-- `parse_synthese` of `notifier_bot.py` (lines 71-142) over a parsed
document. -/
def parse_synthese (root : Node) : List Signal :=
  processAnchors root (candidates root) []

/-! ## Grouping and formatting (`format_items_sorted`, lines 172-179) -/

/-- Stable insertion of an item into a potential-descending list: the new
item goes after every earlier item whose potential is at least as large.
This is the characteristic behaviour of Python
`sorted(items, key=..., reverse=True)`, which is a stable descending sort. -/
def insDesc (x : Signal) : List Signal → List Signal
  | [] => [x]
  | y :: ys => if x.potential ≤ y.potential then y :: insDesc x ys else x :: y :: ys

/-- Insertion sort accumulator. -/
def sortDescAux : List Signal → List Signal → List Signal
  | acc, [] => acc
  | acc, x :: xs => sortDescAux (insDesc x acc) xs

/-- Line 173: `sorted(items, key=lambda x: x.get("potential", 0.0),
reverse=True)` — the stable sort by potential descending. -/
def sortDesc (items : List Signal) : List Signal :=
  sortDescAux [] items

/-- Exact round-half-to-even of `|q| * 100` to an integer, computed from the
numerator and denominator.  This is the rounding Python's `f"{pot:.2f}"`
applies to the value at two decimal places. -/
def roundHalfEven100 (q : Rat) : Nat :=
  let a := q.num.natAbs * 100
  let d := q.den
  let f := a / d
  let r := a % d
  if 2 * r < d then f else if d < 2 * r then f + 1 else if f % 2 = 0 then f else f + 1

/-- Zero-padded two-digit rendering of a number below 100. -/
def twoDigits (n : Nat) : String :=
  (if n < 10 then "0" else "") ++ toString n

/-- Python `f"{pot:.2f}"`: the value rounded to two decimal places, with a
`-` in front of negative values (even ones that round to zero). -/
def fmt2 (q : Rat) : String :=
  let n := roundHalfEven100 q
  (if q < 0 then "-" else "") ++ toString (n / 100) ++ "." ++ twoDigits (n % 100)

/-- Line 177: `sign = "+" if pot > 0 else ""`. -/
def signOf (q : Rat) : String :=
  if 0 < q then "+" else ""

/-- Line 178: one rendered listing line. -/
def renderItem (it : Signal) : String :=
  it.name ++ " (" ++ it.code ++ ") — " ++ signOf it.potential ++ fmt2 it.potential ++ "%"

/-- `format_items_sorted` of `notifier_bot.py` (lines 172-179): sort by
potential descending (stable) and join the rendered lines with newlines. -/
def format_items_sorted (items : List Signal) : String :=
  joinSep "\n" ((sortDesc items).map renderItem)

/-! ## Message splitting (`split_long_message`, lines 182-197) -/

/-- Line-boundary characters of Python `str.splitlines`. -/
def isLineBreakChar (c : Char) : Bool :=
  c == '\n' || c == '\r' || c == '\x0b' || c == '\x0c' || c == '\x1c' ||
    c == '\x1d' || c == '\x1e' || c == '\x85' || c == '\u2028' || c == '\u2029'

/-- Python `text.splitlines(True)`: cut after every line boundary, keeping
the terminators (`\r\n` counts as one boundary); `acc` is the part of the
current line already consumed. -/
def splitlinesAux : List Char → List Char → List (List Char)
  | acc, [] => if acc.isEmpty then [] else [acc]
  | acc, '\r' :: '\n' :: rest => (acc ++ ['\r', '\n']) :: splitlinesAux [] rest
  | acc, c :: rest =>
    if isLineBreakChar c then (acc ++ [c]) :: splitlinesAux [] rest
    else splitlinesAux (acc ++ [c]) rest

/-- Python `text.splitlines(True)` (text as a character sequence). -/
def pySplitlinesKeep (cs : List Char) : List (List Char) :=
  splitlinesAux [] cs

/-- The packing loop of `split_long_message` (lines 188-196): `cur` is the
current part under construction; a line that does not fit flushes `cur`
(even when `cur` is empty) and starts a new part; the final `cur` is
appended when non-empty. -/
def packLines (limit : Nat) : List (List Char) → List Char → List (List Char)
  | [], cur => if cur.isEmpty then [] else [cur]
  | l :: ls, cur =>
    if limit < cur.length + l.length then cur :: packLines limit ls l
    else packLines limit ls (cur ++ l)

/-- `split_long_message` of `notifier_bot.py` (lines 182-197) on a character
sequence: texts within the limit are returned whole, longer ones are packed
line by line. -/
def split_long_message (text : List Char) (limit : Nat) : List (List Char) :=
  if text.length ≤ limit then [text] else packLines limit (pySplitlinesKeep text) []

/-! ## The cache layer (`scrape_with_cache`, lines 145-160)

The module-level `_cache` dictionary is the state; `time.time()` and the
result of `fetch_page`/`parse_synthese` are inputs of one `get`.  The code
only subtracts and compares timestamps, so instants are modelled as
integers; `CACHE_TTL` is an `int` in the source.  A fetch+extract that
raises is an `Except.error`.  The truthiness tests `if _cache["data"]`
(lines 147 and 158) hold exactly when data was stored and is a non-empty
list. -/

/-- The `_cache` dictionary: a timestamp and the optional stored data. -/
structure CacheState where
  ts : Int
  data : Option (List Signal)
deriving Repr, DecidableEq

/-- The initial cache `{"ts": 0, "data": None}` (line 59). -/
def initCache : CacheState := { ts := 0, data := none }

/-- Python truthiness of `_cache["data"]`: `None` and `[]` are falsy. -/
def truthyData : Option (List Signal) → Bool
  | none => false
  | some l => !l.isEmpty

/-- Observable outcome of one `scrape_with_cache()` call: the value returned
(or exception raised), the cache afterwards, and whether `fetch_page` was
invoked. -/
instance {E A : Type} [DecidableEq E] [DecidableEq A] : DecidableEq (Except E A) := fun a b =>
  match a, b with
  | Except.ok x, Except.ok y => decidable_of_iff (x = y) (by simp)
  | Except.error x, Except.error y => decidable_of_iff (x = y) (by simp)
  | Except.ok _, Except.error _ => isFalse (fun h => Except.noConfusion h)
  | Except.error _, Except.ok _ => isFalse (fun h => Except.noConfusion h)

structure GetOutcome where
  result : Except Unit (List Signal)
  cache : CacheState
  fetched : Bool
deriving Repr, DecidableEq

/-- One call of `scrape_with_cache` (lines 145-160): a fresh-enough
non-empty cache is returned without fetching; otherwise the fetch+extract
runs — on success its items are returned and stored with the current time,
on failure stale non-empty data is returned if present, else the exception
propagates. -/
def scrape_with_cache (ttl : Int) (now : Int) (fetch : Except Unit (List Signal))
    (c : CacheState) : GetOutcome :=
  if truthyData c.data = true ∧ now - c.ts < ttl then
    { result := Except.ok (c.data.getD []), cache := c, fetched := false }
  else
    match fetch with
    | Except.ok items =>
      { result := Except.ok items, cache := { ts := now, data := some items }, fetched := true }
    | Except.error e =>
      if truthyData c.data = true then
        { result := Except.ok (c.data.getD []), cache := c, fetched := true }
      else
        { result := Except.error e, cache := c, fetched := true }

/-- A sequence of `scrape_with_cache` calls: each event is the call time and
what the fetch+extract would produce if invoked.  Returns the results, the
final cache, and how many calls actually invoked the fetch. -/
def runGets (ttl : Int) :
    CacheState → List (Int × Except Unit (List Signal)) →
      List (Except Unit (List Signal)) × CacheState × Nat
  | c, [] => ([], c, 0)
  | c, (t, f) :: evs =>
    let o := scrape_with_cache ttl t f c
    let r := runGets ttl o.cache evs
    (o.result :: r.1, r.2.1, (if o.fetched then 1 else 0) + r.2.2)

/-! ## The companion pipeline's persistence (`scraper.py`, lines 197-261)

A collection is a list of stored documents; `update_one(filter, {"$set":
record}, upsert=True)` with a natural-key filter replaces the fields of the
first matching document (the key is unique, so at most one matches) or
appends a new document.  `upserted_id` is set exactly on an insert, and
`modified_count` is 1 exactly when the matched document actually changed.
Every saved record carries the capture timestamp `scraped_at`
(`datetime.utcnow()`), modelled as a number that differs between runs. -/

/-- A stored document: the record fields plus the `scraped_at` stamp. -/
structure StoredDoc (R : Type) where
  data : R
  scrapedAt : Nat

instance {R : Type} [DecidableEq R] : DecidableEq (StoredDoc R) := fun a b =>
  decidable_of_iff (a.data = b.data ∧ a.scrapedAt = b.scrapedAt)
    (by cases a; cases b; simp)

/-- MongoDB `collection.update_one({key...}, {"$set": doc}, upsert=True)`:
returns the new collection, whether a document was inserted
(`upserted_id`), and whether a matched document was modified
(`modified_count`). -/
def update_one {R K : Type} [DecidableEq K] [DecidableEq R] (key : R → K) :
    List (StoredDoc R) → StoredDoc R → List (StoredDoc R) × Bool × Bool
  | [], d => ([d], true, false)
  | c :: cs, d =>
    if key c.data = key d.data then (d :: cs, false, decide (c ≠ d))
    else
      let r := update_one key cs d
      (c :: r.1, r.2.1, r.2.2)

/-- The common shape of `save_companies` / `save_shareholders` /
`save_financials`: upsert every record by its natural key, counting inserts
and updates. -/
def saveAll {R K : Type} [DecidableEq K] [DecidableEq R] (key : R → K) (ts : Nat) :
    List (StoredDoc R) → List R → List (StoredDoc R) × Nat × Nat
  | coll, [] => (coll, 0, 0)
  | coll, r :: rs =>
    let u := update_one key coll { data := r, scrapedAt := ts }
    let s := saveAll key ts u.1 rs
    (s.1, (if u.2.1 then 1 else 0) + s.2.1, (if u.2.2 then 1 else 0) + s.2.2)

/-- A company-list row (`get_company_list`, lines 93-100), natural key
`code`. -/
structure CompanyRec where
  code : String
  title : String
  consensus : String
  potential : String
  url : String
deriving Repr, DecidableEq

/-- A shareholder row (`scrape_shareholders`, lines 132-137), natural key
`(company_code, name)`. -/
structure ShareholderRec where
  company_code : String
  name : String
  percentage : String
deriving Repr, DecidableEq

/-- A financial-metric row (`scrape_financials`, lines 183-188), natural key
`(company_code, metric)`. -/
structure FinancialRec where
  company_code : String
  metric : String
  values : List (String × String)
deriving Repr, DecidableEq

/-- `save_companies` (lines 197-217): upsert by `code`. -/
def save_companies (ts : Nat) (coll : List (StoredDoc CompanyRec))
    (recs : List CompanyRec) : List (StoredDoc CompanyRec) × Nat × Nat :=
  saveAll (fun c => c.code) ts coll recs

/-- `save_shareholders` (lines 219-239): upsert by `(company_code, name)`. -/
def save_shareholders (ts : Nat) (coll : List (StoredDoc ShareholderRec))
    (recs : List ShareholderRec) : List (StoredDoc ShareholderRec) × Nat × Nat :=
  saveAll (fun s => (s.company_code, s.name)) ts coll recs

/-- `save_financials` (lines 241-261): upsert by `(company_code, metric)`. -/
def save_financials (ts : Nat) (coll : List (StoredDoc FinancialRec))
    (recs : List FinancialRec) : List (StoredDoc FinancialRec) × Nat × Nat :=
  saveAll (fun f => (f.company_code, f.metric)) ts coll recs

/-! ## Auxiliary definitions used by the statements -/

/-- A collection contains a document with the given natural key. -/
def hasKey {R K : Type} (key : R → K) (coll : List (StoredDoc R)) (k : K) : Prop :=
  ∃ c ∈ coll, key c.data = k


/-- The deduplication key of an emitted signal. -/
def sigKey (s : Signal) : String × String := (s.code, s.name)

/-- First-occurrence deduplication of a key sequence relative to an initial
`seen` set: later repetitions of a key are dropped. -/
def dedupSeen : List (String × String) → List (String × String) → List (String × String)
  | _, [] => []
  | seen, k :: ks =>
    if k ∈ seen then dedupSeen seen ks else k :: dedupSeen (k :: seen) ks

/-- First-occurrence deduplication of a key sequence. -/
def dedupFirst (ks : List (String × String)) : List (String × String) :=
  dedupSeen [] ks

/-- A concrete non-empty signal used by the cache witnesses. -/
def sigA : Signal := { code := "AAA", name := "Alpha", action := "BUY", potential := 0 }

/-- A concrete document whose only candidate link has target `conseil/`
(empty last path segment) next to a BUY icon: the extractor emits a signal
with an empty code. -/
def synDocEmptyCode : Node :=
  Node.elem "[document]" [] [
    Node.elem "tr" [] [
      Node.elem "td" [] [
        Node.elem "a" [("href", "conseil/")] [Node.text "Foo"],
        Node.elem "img" [("src", "f_1b.png")] []]]]

/-- A concrete document whose only candidate link has no action icon
anywhere near it: the extractor emits nothing. -/
def synDocNoIcon : Node :=
  Node.elem "[document]" [] [
    Node.elem "a" [("href", "conseil/xyz")] [Node.text "Bar"]]

/-- A concrete company record used by the C8 witness. -/
def coA : CompanyRec :=
  { code := "ABC", title := "Abc Corp", consensus := "Buy", potential := "12%", url := "u" }

/-- A concrete shareholder record used by the C8 witness. -/
def shA : ShareholderRec := { company_code := "ABC", name := "Holder", percentage := "10%" }

/-- A concrete financial record used by the C8 witness. -/
def fiA : FinancialRec := { company_code := "ABC", metric := "Revenue", values := [("2023", "5")] }

/-- The bucket of the formatting example in the specification: potentials
5.0, -2.0 and 10.0. -/
def c4bucket : List Signal :=
  [{ code := "AAA", name := "Alpha", action := "BUY", potential := 5 },
   { code := "BBB", name := "Beta", action := "SELL", potential := -2 },
   { code := "CCC", name := "Gamma", action := "BUY", potential := 10 }]

set_option maxHeartbeats 1000000

/-! ## Properties of the message splitter -/

/-- Concatenating the pieces of `splitlines(True)` restores the text. -/
theorem splitlinesAux_join : ∀ (acc cs : List Char), (splitlinesAux acc cs).flatten = acc ++ cs := by
  intro acc cs
  induction acc, cs using splitlinesAux.induct with
  | case1 acc h =>
    have h2 := List.isEmpty_iff.mp h
    subst h2
    simp [splitlinesAux]
  | case2 acc h =>
    have h2 : acc ≠ [] := fun hc => h (by simp [hc])
    simp [splitlinesAux, h2]
  | case3 acc rest ih => simp [splitlinesAux, ih]
  | case4 acc c rest hno hlb ih => simp_all [splitlinesAux]
  | case5 acc c rest hno hlb ih => simp_all [splitlinesAux]

/-- Every piece produced by `splitlines(True)` is non-empty. -/
theorem splitlinesAux_ne_nil :
    ∀ (acc cs : List Char), ∀ l ∈ splitlinesAux acc cs, l ≠ [] := by
  intro acc cs
  induction acc, cs using splitlinesAux.induct with
  | case1 acc h =>
    intro l hl
    simp [splitlinesAux, h] at hl
  | case2 acc h =>
    intro l hl
    simp only [splitlinesAux, if_neg h, List.mem_singleton] at hl
    subst hl
    exact fun hc => h (by simp [hc])
  | case3 acc rest ih =>
    intro l hl
    simp only [splitlinesAux, List.mem_cons] at hl
    rcases hl with h | h
    · subst h; simp
    · exact ih l h
  | case4 acc c rest hno hlb ih =>
    intro l hl
    simp_all [splitlinesAux]
    rcases hl with h | h
    · subst h; simp
    · exact ih l h
  | case5 acc c rest hno hlb ih =>
    intro l hl
    simp_all [splitlinesAux]

/-- Concatenating the parts produced by the packing loop restores the
current part plus the remaining lines. -/
theorem packLines_flatten (limit : Nat) :
    ∀ (ls : List (List Char)) (cur : List Char),
      (packLines limit ls cur).flatten = cur ++ ls.flatten := by
  intro ls
  induction ls with
  | nil =>
    intro cur
    by_cases h : cur = []
    · subst h; simp [packLines]
    · simp [packLines, List.isEmpty_iff, h]
  | cons l ls ih =>
    intro cur
    by_cases h : limit < cur.length + l.length
    · simp [packLines, h, ih]
    · simp [packLines, h, ih]

/-- C10.  Message splitting loses nothing: for every input text and every
positive character limit, concatenating the parts returned by
`split_long_message` in order reproduces the original text exactly. -/
theorem C10_split_long_message_concat (text : List Char) (limit : Nat)
    (hpos : 0 < limit) :
    (split_long_message text limit).flatten = text := by
  unfold split_long_message
  by_cases hle : text.length ≤ limit
  · simp [hle]
  · simp [hle, packLines_flatten, pySplitlinesKeep, splitlinesAux_join]

/-- Witness for C10 at a concrete input. -/
theorem C10_split_long_message_concat_witness :
    (split_long_message ("ab\ncd".toList) 3).flatten = "ab\ncd".toList :=
  C10_split_long_message_concat ("ab\ncd".toList) 3 (by decide)

/-- Whenever the current part is a concatenation of whole lines, every part
produced by the packing loop is also a concatenation of whole, consecutive
lines. -/
theorem packLines_blocks (limit : Nat) :
    ∀ (ls : List (List Char)) (bcur : List (List Char)),
      (∀ l ∈ ls, l ≠ []) → [] ∉ bcur →
      ∃ blocks : List (List (List Char)),
        blocks.map List.flatten = packLines limit ls bcur.flatten ∧
        blocks.flatten = bcur ++ ls := by
  intro ls
  induction ls with
  | nil =>
    intro bcur hls hb
    by_cases h : bcur.flatten = ([] : List Char)
    · have hbe : bcur = [] := by
        cases bcur with
        | nil => rfl
        | cons b t =>
          exfalso
          have hb0 : b = [] := by
            have h2 : b ++ t.flatten = [] := by simpa using h
            exact (List.append_eq_nil.mp h2).1
          exact hb (by simp [hb0])
      subst hbe
      exact ⟨[], by simp [packLines], by simp⟩
    · refine ⟨[bcur], ?_, by simp⟩
      simp [packLines, List.isEmpty_iff, h]
  | cons l ls ih =>
    intro bcur hls hb
    have hlne : l ≠ [] := hls l (by simp)
    by_cases h : limit < bcur.flatten.length + l.length
    · obtain ⟨bs, h1, h2⟩ := ih [l] (fun x hx => hls x (List.mem_cons_of_mem _ hx))
        (by simpa [eq_comm] using hlne)
      refine ⟨bcur :: bs, ?_, ?_⟩
      · simp only [packLines, List.map_cons]
        rw [if_pos h, h1]
        simp
      · simp [h2]
    · obtain ⟨bs, h1, h2⟩ := ih (bcur ++ [l]) (fun x hx => hls x (List.mem_cons_of_mem _ hx))
        (by simp [hb]; simpa [eq_comm] using hlne)
      have e : (bcur ++ [l]).flatten = bcur.flatten ++ l := by simp
      refine ⟨bs, ?_, ?_⟩
      · rw [h1, e]
        simp only [packLines]
        rw [if_neg h]
      · rw [h2]
        simp

/-- C5.  Message splitting never breaks inside a line: a text within the
character budget is returned as a single part; otherwise every returned
part is the concatenation of whole consecutive lines of the text (the
blocks partition the line sequence in order); and in the five-line
scenario where lines 1-3 fit under the limit but line 4 overflows the
remaining budget, part one is exactly lines 1-3 and part two starts with
line 4. -/
theorem C5_split_never_breaks_lines :
    (∀ (text : List Char) (limit : Nat), text.length ≤ limit →
        split_long_message text limit = [text]) ∧
    (∀ (text : List Char) (limit : Nat),
        ∃ blocks : List (List (List Char)),
          blocks.map List.flatten = split_long_message text limit ∧
          blocks.flatten = pySplitlinesKeep text) ∧
    (∀ (text l1 l2 l3 l4 l5 : List Char) (limit : Nat),
        pySplitlinesKeep text = [l1, l2, l3, l4, l5] →
        (l1 ++ l2 ++ l3).length ≤ limit →
        limit < (l1 ++ l2 ++ l3).length + l4.length →
        ∃ t rest, split_long_message text limit = (l1 ++ l2 ++ l3) :: (l4 ++ t) :: rest) := by
  refine ⟨?_, ?_, ?_⟩
  · intro text limit h
    unfold split_long_message
    rw [if_pos h]
  · intro text limit
    by_cases hle : text.length ≤ limit
    · refine ⟨[pySplitlinesKeep text], ?_, by simp⟩
      unfold split_long_message
      rw [if_pos hle]
      simp [pySplitlinesKeep, splitlinesAux_join]
    · obtain ⟨bs, h1, h2⟩ := packLines_blocks limit (pySplitlinesKeep text) []
        (fun l hl => splitlinesAux_ne_nil [] text l hl) (by simp)
      refine ⟨bs, ?_, by simpa using h2⟩
      unfold split_long_message
      rw [if_neg hle]
      simpa using h1
  · intro text l1 l2 l3 l4 l5 limit hsp h123 h4
    have hjoin : l1 ++ (l2 ++ (l3 ++ (l4 ++ l5))) = text := by
      have := splitlinesAux_join [] text
      rw [pySplitlinesKeep] at hsp
      rw [hsp] at this
      simpa using this
    have hlen : ¬ text.length ≤ limit := by
      rw [← hjoin]
      simp only [List.length_append] at h123 h4 ⊢
      omega
    have hl5 : l5 ≠ [] := splitlinesAux_ne_nil [] text l5
      (by rw [pySplitlinesKeep] at hsp; rw [hsp]; simp)
    have hl4 : l4 ≠ [] := splitlinesAux_ne_nil [] text l4
      (by rw [pySplitlinesKeep] at hsp; rw [hsp]; simp)
    unfold split_long_message
    rw [if_neg hlen, hsp]
    have e1 : ¬ limit < ([] : List Char).length + l1.length := by
      simp only [List.length_append] at h123 ⊢
      simp only [List.length_nil]
      omega
    have e2 : ¬ limit < (([] : List Char) ++ l1).length + l2.length := by
      simp only [List.length_append, List.length_nil] at h123 ⊢
      omega
    have e3 : ¬ limit < ((([] : List Char) ++ l1) ++ l2).length + l3.length := by
      simp only [List.length_append, List.length_nil] at h123 ⊢
      omega
    have e4 : limit < (((([] : List Char) ++ l1) ++ l2) ++ l3).length + l4.length := by
      simp only [List.length_append, List.length_nil] at h4 ⊢
      omega
    simp only [packLines]
    rw [if_neg e1, if_neg e2, if_neg e3, if_pos e4]
    by_cases h45 : limit < l4.length + l5.length
    · refine ⟨[], [l5], ?_⟩
      rw [if_pos h45]
      simp [List.isEmpty_iff, hl5, List.append_assoc]
    · refine ⟨l5, [], ?_⟩
      rw [if_neg h45]
      have hne : l4 ++ l5 ≠ [] := fun hc => hl4 (List.append_eq_nil.mp hc).1
      simp [List.isEmpty_iff, hne, List.append_assoc]

/-- Witness for C5 at a concrete five-line input with limit 6. -/
theorem C5_split_never_breaks_lines_witness :
    ∃ t rest, split_long_message ("a\nb\nc\ndddd\ne".toList) 6 =
      ("a\n".toList ++ "b\n".toList ++ "c\n".toList) :: ("dddd\n".toList ++ t) :: rest :=
  C5_split_never_breaks_lines.2.2 ("a\nb\nc\ndddd\ne".toList)
    ("a\n".toList) ("b\n".toList) ("c\n".toList) ("dddd\n".toList) ("e".toList) 6
    (by decide) (by decide) (by decide)

/-! ## Properties of the cache layer -/

/-- After a successful fetch of a non-empty list, every later call within
the TTL window is served from the cache: no fetch, unchanged state, same
data. -/
theorem runGets_fresh_hits (ttl t0 : Int) (items : List Signal) (hne : items ≠ [])
    (evs : List (Int × Except Unit (List Signal))) (hw : ∀ ev ∈ evs, ev.1 - t0 < ttl) :
    runGets ttl { ts := t0, data := some items } evs =
      (evs.map (fun _ => Except.ok items), { ts := t0, data := some items }, 0) := by
  induction evs with
  | nil => simp [runGets]
  | cons ev evs ih =>
    obtain ⟨t, f⟩ := ev
    have htr : truthyData (some items) = true := by
      cases items with
      | nil => exact absurd rfl hne
      | cons a l => rfl
    have ht : t - t0 < ttl := hw (t, f) (by simp)
    have ihh := ih (fun ev hev => hw ev (List.mem_cons_of_mem _ hev))
    simp [runGets, scrape_with_cache, htr, ht, ihh]

/-- C6 (amended).  A successful fetch+extract that yields a non-empty list
is cached: across the initial call and any number of later calls whose
times lie within TTL of it, the fetch runs exactly once, and every call
returns that first call's data. -/
theorem C6_within_ttl_single_fetch (ttl t0 : Int) (items : List Signal)
    (hne : items ≠ []) (evs : List (Int × Except Unit (List Signal)))
    (hw : ∀ ev ∈ evs, ev.1 - t0 < ttl) :
    (runGets ttl initCache ((t0, Except.ok items) :: evs)).2.2 = 1 ∧
    (runGets ttl initCache ((t0, Except.ok items) :: evs)).1 =
      Except.ok items :: evs.map (fun _ => Except.ok items) := by
  have hstep : scrape_with_cache ttl t0 (Except.ok items) initCache =
      { result := Except.ok items, cache := { ts := t0, data := some items },
        fetched := true } := by
    simp [scrape_with_cache, initCache, truthyData]
  constructor <;>
    simp [runGets, hstep, runGets_fresh_hits ttl t0 items hne evs hw]

/-- Counterexample to C6 as stated: a successful fetch+extract that yields
the empty list is not honoured by the cache — a second call 50 seconds
later (well within the TTL of 300) fetches again, so the fetch count is 2,
not 1. -/
theorem C6_empty_extraction_counterexample :
    (runGets 300 initCache [(100, Except.ok []), (150, Except.ok [])]).2.2 = 2 := by
  decide

/-- Witness for C6 at concrete inputs: one successful fetch at time 50
followed by two in-window calls keeps the fetch count at 1. -/
theorem C6_within_ttl_single_fetch_witness :
    (runGets 300 initCache ((50, Except.ok [sigA]) ::
      [(100, Except.error ()), (200, Except.error ())])).2.2 = 1 :=
  (C6_within_ttl_single_fetch 300 50 [sigA] (by decide) _ (by decide)).1

/-- Counterexample to C7 as stated: the first fetch succeeded (with an
empty extraction), the second raises after TTL expiry, and the second call
raises instead of returning the first call's data. -/
theorem C7_empty_data_counterexample :
    (runGets 300 initCache [(0, Except.ok []), (400, Except.error ())]).1 =
      [Except.ok [], Except.error ()] := by
  decide

/-- C7 (amended).  On fetch failure the previously cached data is returned
regardless of staleness, provided a successful fetch ever produced a
non-empty list; when nothing (non-empty) was ever cached, the failure
propagates to the caller. -/
theorem C7_stale_fallback :
    (∀ (ttl t0 t1 : Int) (items : List Signal), items ≠ [] → ttl ≤ t1 - t0 →
        (runGets ttl initCache [(t0, Except.ok items), (t1, Except.error ())]).1 =
          [Except.ok items, Except.ok items]) ∧
    (∀ (ttl t : Int),
        (runGets ttl initCache [(t, Except.error ())]).1 = [Except.error ()]) := by
  constructor
  · intro ttl t0 t1 items hne hexp
    have htr : truthyData (some items) = true := by
      cases items with
      | nil => exact absurd rfl hne
      | cons a l => rfl
    have hnl : ¬ t1 - t0 < ttl := not_lt.mpr hexp
    have hstep1 : scrape_with_cache ttl t0 (Except.ok items) initCache =
        { result := Except.ok items, cache := { ts := t0, data := some items },
          fetched := true } := by
      simp [scrape_with_cache, initCache, truthyData]
    have hstep2 : scrape_with_cache ttl t1 (Except.error ())
        { ts := t0, data := some items } =
        { result := Except.ok items, cache := { ts := t0, data := some items },
          fetched := true } := by
      simp [scrape_with_cache, htr, hnl]
    simp [runGets, hstep1, hstep2]
  · intro ttl t
    simp [runGets, scrape_with_cache, initCache, truthyData]

/-- Witness for C7 at concrete inputs. -/
theorem C7_stale_fallback_witness :
    (runGets 300 initCache [(0, Except.ok [sigA]), (400, Except.error ())]).1 =
      [Except.ok [sigA], Except.ok [sigA]] ∧
    (runGets 300 initCache [(17, Except.error ())]).1 = [Except.error ()] :=
  ⟨C7_stale_fallback.1 300 0 400 [sigA] (by decide) (by decide),
   C7_stale_fallback.2 300 17⟩

/-- C9.  A successful fetch+extract that yields an empty list stores it,
but the empty list is falsy, so the cache behaves as if nothing were
cached: every later call attempts a fetch even within TTL, and that call's
outcome (data or exception) is exactly the fetch's outcome — a failure
propagates instead of the cached empty list being returned. -/
theorem C9_empty_cache_always_fetches :
    (∀ (ttl t0 : Int),
        (scrape_with_cache ttl t0 (Except.ok []) initCache).cache =
          { ts := t0, data := some [] }) ∧
    (∀ (ttl t0 t : Int) (fetch : Except Unit (List Signal)),
        (scrape_with_cache ttl t fetch { ts := t0, data := some [] }).fetched = true ∧
        (scrape_with_cache ttl t fetch { ts := t0, data := some [] }).result = fetch) := by
  constructor
  · intro ttl t0
    simp [scrape_with_cache, initCache, truthyData]
  · intro ttl t0 t fetch
    cases fetch with
    | ok items =>
      exact ⟨by simp [scrape_with_cache, truthyData],
        by simp [scrape_with_cache, truthyData]⟩
    | error e =>
      exact ⟨by simp [scrape_with_cache, truthyData],
        by simp [scrape_with_cache, truthyData]⟩

/-! ## Properties of the synthesis extractor -/

/-- A successful `findSome?` comes from some element of the list. -/
theorem findSome?_exists {α β : Type} (f : α → Option β) :
    ∀ (l : List α) (b : β), l.findSome? f = some b → ∃ x ∈ l, f x = some b := by
  intro l b
  induction l with
  | nil => intro h; simp [List.findSome?] at h
  | cons a t ih =>
    intro h
    rw [List.findSome?_cons] at h
    cases hfa : f a with
    | some v =>
      rw [hfa] at h
      exact ⟨a, by simp, by rw [hfa]; simpa using h⟩
    | none =>
      rw [hfa] at h
      obtain ⟨x, hx, hfx⟩ := ih h
      exact ⟨x, List.mem_cons_of_mem _ hx, hfx⟩

/-- Every value of the icon mapping is one of the four actions. -/
theorem lookup_ACTION_mem (s v : String) (h : List.lookup s ACTION_MAP = some v) :
    v = "BUY" ∨ v = "SELL" ∨ v = "KEEP" ∨ v = "TAKE PROFIT" := by
  simp only [ACTION_MAP, List.lookup] at h
  split at h
  · simp_all
  · split at h
    · simp_all
    · split at h
      · simp_all
      · split at h
        · simp_all
        · simp_all

/-- An inferred action always comes from the four-value mapping. -/
theorem anchorAction_mem (root : Node) (p : HPath) (act : String)
    (h : anchorAction root p = some act) :
    act = "BUY" ∨ act = "SELL" ∨ act = "KEEP" ∨ act = "TAKE PROFIT" := by
  simp only [anchorAction] at h
  obtain ⟨img, hmem, hf⟩ := findSome?_exists _ _ _ h
  split at hf
  · exact absurd hf (by simp)
  · exact lookup_ACTION_mem _ _ hf

/-- When the percent pattern matches somewhere in the search window, the
potential is the parsed, comma-normalised first match. -/
theorem findPotential_of_search {s : String} {g : List Char}
    (h : searchFrom s.toList = some g) :
    findPotential s = parseDec (g.map (fun c => if c == ',' then '.' else c)) := by
  have h2 : searchFrom s.data = some g := h
  simp [findPotential, h2]

/-- Every emitted signal originates from one of the processed candidates:
its code and name are derived from that candidate's link, its action was
confirmed by the icon search, and its potential is the parsed value of that
candidate's text window. -/
theorem processAnchors_src (root : Node) :
    ∀ (l : List (HPath × Node)) (seen : List (String × String)) (sig : Signal),
      sig ∈ processAnchors root l seen →
      ∃ pa, pa ∈ l ∧ sig.code = anchorCode pa.2 ∧ sig.name = anchorName pa.2 ∧
        anchorAction root pa.1 = some sig.action ∧
        sig.potential = anchorPotential root pa.1 := by
  intro l
  induction l with
  | nil => intro seen sig h; simp [processAnchors] at h
  | cons pa rest ih =>
    intro seen sig h
    obtain ⟨p, a⟩ := pa
    simp only [processAnchors] at h
    by_cases hdup : anchorKey a ∈ seen
    · rw [if_pos hdup] at h
      obtain ⟨pb, hmem, h1, h2, h3, h4⟩ := ih seen sig h
      exact ⟨pb, List.mem_cons_of_mem _ hmem, h1, h2, h3, h4⟩
    · rw [if_neg hdup] at h
      cases hact : anchorAction root p with
      | none =>
        rw [hact] at h
        obtain ⟨pb, hmem, h1, h2, h3, h4⟩ := ih _ sig h
        exact ⟨pb, List.mem_cons_of_mem _ hmem, h1, h2, h3, h4⟩
      | some act =>
        rw [hact] at h
        rcases List.mem_cons.mp h with he | ht
        · subst he
          exact ⟨(p, a), by simp, rfl, rfl, by simpa using hact, rfl⟩
        · obtain ⟨pb, hmem, h1, h2, h3, h4⟩ := ih _ sig ht
          exact ⟨pb, List.mem_cons_of_mem _ hmem, h1, h2, h3, h4⟩

/-- No emitted key is in the `seen` set, and the emitted keys are pairwise
distinct. -/
theorem processAnchors_nodup (root : Node) :
    ∀ (l : List (HPath × Node)) (seen : List (String × String)),
      (∀ k ∈ (processAnchors root l seen).map sigKey, k ∉ seen) ∧
      ((processAnchors root l seen).map sigKey).Nodup := by
  intro l
  induction l with
  | nil => intro seen; simp [processAnchors]
  | cons pa rest ih =>
    intro seen
    obtain ⟨p, a⟩ := pa
    simp only [processAnchors]
    by_cases hdup : anchorKey a ∈ seen
    · rw [if_pos hdup]
      exact ih seen
    · rw [if_neg hdup]
      cases hact : anchorAction root p with
      | none =>
        refine ⟨fun k hk hks => ?_, (ih _).2⟩
        exact (ih (anchorKey a :: seen)).1 k hk (List.mem_cons_of_mem _ hks)
      | some act =>
        constructor
        · intro k hk hks
          simp only [List.map_cons, List.mem_cons] at hk
          rcases hk with he | ht
          · rw [he] at hks
            exact hdup (by simpa [sigKey, anchorKey] using hks)
          · exact (ih (anchorKey a :: seen)).1 k ht (List.mem_cons_of_mem _ hks)
        · simp only [List.map_cons, List.nodup_cons]
          refine ⟨fun hc => ?_, (ih _).2⟩
          have := (ih (anchorKey a :: seen)).1 _ hc
          exact this (by simp [sigKey, anchorKey])

/-- The emitted key sequence is an order-preserving subsequence of the
first-occurrence deduplication of the candidate key sequence: output order
follows document order and the first occurrence of a key wins. -/
theorem processAnchors_sublist (root : Node) :
    ∀ (l : List (HPath × Node)) (seen : List (String × String)),
      List.Sublist ((processAnchors root l seen).map sigKey)
        (dedupSeen seen (l.map (fun pa => anchorKey pa.2))) := by
  intro l
  induction l with
  | nil => intro seen; simp [processAnchors, dedupSeen]
  | cons pa rest ih =>
    intro seen
    obtain ⟨p, a⟩ := pa
    simp only [processAnchors, List.map_cons, dedupSeen]
    by_cases hdup : anchorKey a ∈ seen
    · rw [if_pos hdup, if_pos hdup]
      exact ih seen
    · rw [if_neg hdup, if_neg hdup]
      cases hact : anchorAction root p with
      | none => exact List.Sublist.cons _ (ih _)
      | some act =>
        simp only [List.map_cons]
        have he : sigKey ⟨anchorCode a, anchorName a, act, anchorPotential root p⟩ =
            anchorKey a := rfl
        rw [he]
        exact List.Sublist.cons₂ _ (ih _)

/-- At most one signal is emitted per candidate link. -/
theorem processAnchors_length_le (root : Node) :
    ∀ (l : List (HPath × Node)) (seen : List (String × String)),
      (processAnchors root l seen).length ≤ l.length := by
  intro l
  induction l with
  | nil => intro seen; simp [processAnchors]
  | cons pa rest ih =>
    intro seen
    obtain ⟨p, a⟩ := pa
    simp only [processAnchors, List.length_cons]
    by_cases hdup : anchorKey a ∈ seen
    · rw [if_pos hdup]
      exact Nat.le_succ_of_le (ih seen)
    · rw [if_neg hdup]
      cases anchorAction root p with
      | none => exact Nat.le_succ_of_le (ih _)
      | some act => simpa using Nat.succ_le_succ (ih _)

/-- A candidate whose icon search fails contributes nothing, so the output
is strictly shorter than the candidate list. -/
theorem processAnchors_length_lt (root : Node) :
    ∀ (l : List (HPath × Node)) (seen : List (String × String)),
      (∃ pa ∈ l, anchorAction root pa.1 = none) →
      (processAnchors root l seen).length < l.length := by
  intro l
  induction l with
  | nil => intro seen h; simp at h
  | cons pa rest ih =>
    intro seen hw
    obtain ⟨p, a⟩ := pa
    simp only [processAnchors, List.length_cons]
    by_cases hdup : anchorKey a ∈ seen
    · rw [if_pos hdup]
      exact Nat.lt_succ_of_le (processAnchors_length_le root rest seen)
    · rw [if_neg hdup]
      cases hact : anchorAction root p with
      | none => exact Nat.lt_succ_of_le (processAnchors_length_le root rest _)
      | some act =>
        rcases hw with ⟨pb, hmem, hnone⟩
        rcases List.mem_cons.mp hmem with he | ht
        · exfalso
          rw [he] at hnone
          simp only at hnone
          rw [hnone] at hact
          exact Option.noConfusion hact
        · simpa using Nat.succ_lt_succ (ih _ ⟨pb, ht, hnone⟩)

/-- Counterexample to the non-empty-code part of C1: on `synDocEmptyCode`
(whose only candidate link targets `conseil/`, with an empty last path
segment) the extractor emits exactly one signal and its code is the empty
string. -/
theorem C1_empty_code_counterexample :
    (parse_synthese synDocEmptyCode).map Signal.code = [""] := by
  decide

/-- C1 (amended).  Every emitted signal's action is drawn from the fixed
four-value enumeration; every emitted signal's code and name are the
upper-cased trimmed last path segment and the stripped link text of one of
the candidate links (the code is empty exactly when that segment is blank);
no two emitted signals share the same (code, name) pair; and the emitted
key sequence is an order-preserving subsequence of the first-occurrence
deduplication of the candidate keys in document order. -/
theorem C1_extractor_contract (doc : Node) :
    (∀ sig ∈ parse_synthese doc,
        sig.action = "BUY" ∨ sig.action = "SELL" ∨ sig.action = "KEEP" ∨
          sig.action = "TAKE PROFIT") ∧
    (∀ sig ∈ parse_synthese doc, ∃ pa, pa ∈ candidates doc ∧
        sig.code = anchorCode pa.2 ∧ sig.name = anchorName pa.2) ∧
    ((parse_synthese doc).map sigKey).Nodup ∧
    List.Sublist ((parse_synthese doc).map sigKey)
      (dedupFirst ((candidates doc).map (fun pa => anchorKey pa.2))) := by
  refine ⟨?_, ?_, ?_, ?_⟩
  · intro sig h
    obtain ⟨pa, _, _, _, hact, _⟩ := processAnchors_src doc (candidates doc) [] sig h
    exact anchorAction_mem doc pa.1 sig.action hact
  · intro sig h
    obtain ⟨pa, hm, h1, h2, _, _⟩ := processAnchors_src doc (candidates doc) [] sig h
    exact ⟨pa, hm, h1, h2⟩
  · exact (processAnchors_nodup doc (candidates doc) []).2
  · exact processAnchors_sublist doc (candidates doc) []

/-- Witness for C1 on a concrete document whose one emitted signal is
`⟨"", "Foo", "BUY", 0⟩`. -/
theorem C1_extractor_contract_witness :
    (⟨"", "Foo", "BUY", 0⟩ : Signal).action = "BUY" ∨
    (⟨"", "Foo", "BUY", 0⟩ : Signal).action = "SELL" ∨
    (⟨"", "Foo", "BUY", 0⟩ : Signal).action = "KEEP" ∨
    (⟨"", "Foo", "BUY", 0⟩ : Signal).action = "TAKE PROFIT" :=
  (C1_extractor_contract synDocEmptyCode).1 ⟨"", "Foo", "BUY", 0⟩ (by decide)

/-- C2.  An asset record is emitted only when an action icon is confirmed:
the extractor's output count never exceeds the candidate-link count, every
emitted signal has a confirmed action from one of the candidates, and the
output count is strictly smaller than the candidate count whenever some
candidate that survives deduplication (the first occurrence of its key) has
no recognisable action icon. -/
theorem C2_no_icon_never_emitted (doc : Node) :
    (parse_synthese doc).length ≤ (candidates doc).length ∧
    (∀ sig ∈ parse_synthese doc, ∃ pa, pa ∈ candidates doc ∧
        anchorAction doc pa.1 = some sig.action) ∧
    ((∃ i, ∃ _ : i < (candidates doc).length,
        anchorAction doc ((candidates doc).getD i ([], Node.text "")).1 = none ∧
        ∀ j < i, anchorKey ((candidates doc).getD j ([], Node.text "")).2 ≠
          anchorKey ((candidates doc).getD i ([], Node.text "")).2) →
      (parse_synthese doc).length < (candidates doc).length) := by
  refine ⟨?_, ?_, ?_⟩
  · exact processAnchors_length_le doc (candidates doc) []
  · intro sig h
    obtain ⟨pa, hm, _, _, hact, _⟩ := processAnchors_src doc (candidates doc) [] sig h
    exact ⟨pa, hm, hact⟩
  · rintro ⟨i, hi, hnone, hfirst⟩
    apply processAnchors_length_lt doc (candidates doc) []
    refine ⟨(candidates doc).getD i ([], Node.text ""), ?_, hnone⟩
    rw [List.getD_eq_getElem _ _ hi]
    exact List.getElem_mem hi

/-- Witness for C2 on a concrete document with one icon-less candidate. -/
theorem C2_no_icon_never_emitted_witness :
    (parse_synthese synDocNoIcon).length < (candidates synDocNoIcon).length :=
  (C2_no_icon_never_emitted synDocNoIcon).2.2
    ⟨0, by decide, by decide, fun j hj => absurd hj (Nat.not_lt_zero j)⟩

/-- C3.  Potential parsing is total: when the window holds no percent token
the potential is the default 0.0; every emitted signal's potential is the
parsed value of some candidate text window; `"12,5%"` parses to 12.5 (the
comma is normalised to a dot), `"-3.2 %"` parses to -3.2, and the first
match wins (`"abc 7% -3%"` parses to 7).  The parse function is total, so
no numeric failure can propagate. -/
theorem C3_potential_total :
    (∀ s : String, searchFrom s.toList = none → findPotential s = 0) ∧
    (∀ (doc : Node), ∀ sig ∈ parse_synthese doc,
        ∃ p : HPath, sig.potential = findPotential (textArea doc p)) ∧
    findPotential "12,5%" = 25/2 ∧
    findPotential "-3.2 %" = -16/5 ∧
    findPotential "abc 7% -3%" = 7 := by
  refine ⟨?_, ?_, ?_, ?_, ?_⟩
  · intro s h
    have h2 : searchFrom s.data = none := h
    simp [findPotential, h2]
  · intro doc sig hsig
    obtain ⟨pa, _, _, _, _, h4⟩ := processAnchors_src doc (candidates doc) [] sig hsig
    exact ⟨pa.1, h4⟩
  · rw [findPotential_of_search (g := ['1','2',',','5']) (by decide)]
    have h2 : List.map (fun c => if c == ',' then '.' else c) ['1','2',',','5'] =
        ['1','2','.','5'] := by decide
    have h3 : digitSpan ['1','2','.','5'] = (['1','2'], ['.','5']) := by decide
    have h4 : digitSpan ['5'] = (['5'], []) := by decide
    have h5 : digitsToNat ['1','2'] = 12 := by decide
    have h6 : digitsToNat ['5'] = 5 := by decide
    simp [parseDec, parseUnsigned, h2, h3, h4, h5, h6]
    norm_num
  · rw [findPotential_of_search (g := ['-','3','.','2']) (by decide)]
    have h2 : List.map (fun c => if c == ',' then '.' else c) ['-','3','.','2'] =
        ['-','3','.','2'] := by decide
    have h3 : digitSpan ['3','.','2'] = (['3'], ['.','2']) := by decide
    have h4 : digitSpan ['2'] = (['2'], []) := by decide
    have h5 : digitsToNat ['3'] = 3 := by decide
    have h6 : digitsToNat ['2'] = 2 := by decide
    simp [parseDec, parseUnsigned, h2, h3, h4, h5, h6]
    norm_num
  · rw [findPotential_of_search (g := ['7']) (by decide)]
    have h2 : List.map (fun c => if c == ',' then '.' else c) ['7'] = ['7'] := by decide
    have h3 : digitSpan ['7'] = (['7'], []) := by decide
    have h5 : digitsToNat ['7'] = 7 := by decide
    simp [parseDec, parseUnsigned, h2, h3, h5]

/-- Witness for C3: a window without a percent token parses to 0, and the
emitted signal of `synDocEmptyCode` has the potential of its own window. -/
theorem C3_potential_total_witness :
    findPotential "Foo" = 0 ∧
    ∃ p : HPath, (Signal.potential ⟨"", "Foo", "BUY", 0⟩) =
      findPotential (textArea synDocEmptyCode p) :=
  ⟨C3_potential_total.1 "Foo" (by decide),
   C3_potential_total.2.1 synDocEmptyCode ⟨"", "Foo", "BUY", 0⟩ (by decide)⟩

/-! ## Properties of the listing formatter -/

/-- Membership in a stable insertion. -/
theorem mem_insDesc (x z : Signal) : ∀ l, z ∈ insDesc x l ↔ z = x ∨ z ∈ l := by
  intro l
  induction l with
  | nil => simp [insDesc]
  | cons y ys ih =>
    simp only [insDesc]
    by_cases h : x.potential ≤ y.potential
    · rw [if_pos h]
      rw [List.mem_cons, ih, List.mem_cons]
      tauto
    · rw [if_neg h]
      exact List.mem_cons

/-- Stable insertion preserves the potential-descending order. -/
theorem insDesc_pairwise (x : Signal) :
    ∀ l, List.Pairwise (fun a b => b.potential ≤ a.potential) l →
      List.Pairwise (fun a b => b.potential ≤ a.potential) (insDesc x l) := by
  intro l
  induction l with
  | nil => intro _; simp [insDesc]
  | cons y ys ih =>
    intro hp
    rw [List.pairwise_cons] at hp
    obtain ⟨hy, hys⟩ := hp
    simp only [insDesc]
    by_cases h : x.potential ≤ y.potential
    · rw [if_pos h, List.pairwise_cons]
      refine ⟨fun z hz => ?_, ih hys⟩
      rcases (mem_insDesc x z ys).mp hz with he | hm
      · subst he; exact h
      · exact hy z hm
    · rw [if_neg h, List.pairwise_cons]
      refine ⟨fun z hz => ?_, List.Pairwise.cons hy hys⟩
      rcases List.mem_cons.mp hz with he | hm
      · subst he; exact le_of_not_le h
      · exact le_trans (hy z hm) (le_of_not_le h)

/-- Stable insertion appends the new item behind the earlier items of equal
potential: the equal-potential subsequences record the original order. -/
theorem insDesc_filter (p : Rat) (x : Signal) :
    ∀ l, List.Pairwise (fun a b => b.potential ≤ a.potential) l →
      (insDesc x l).filter (fun s => s.potential == p) =
        l.filter (fun s => s.potential == p) ++
          (if x.potential == p then [x] else []) := by
  intro l
  induction l with
  | nil =>
    intro _
    simp only [insDesc, List.filter_nil, List.nil_append]
    by_cases hq : (x.potential == p) = true <;> simp [List.filter_cons, hq]
  | cons y ys ih =>
    intro hp
    rw [List.pairwise_cons] at hp
    obtain ⟨hy, hys⟩ := hp
    simp only [insDesc]
    by_cases h : x.potential ≤ y.potential
    · rw [if_pos h]
      simp only [List.filter_cons, ih hys]
      by_cases hqy : (y.potential == p) = true <;> simp [hqy]
    · rw [if_neg h]
      by_cases hqx : (x.potential == p) = true
      · have hxp : x.potential = p := by simpa using hqx
        have hylt : y.potential < x.potential := not_le.mp h
        have hfy : (y :: ys).filter (fun s => s.potential == p) = [] := by
          rw [List.filter_eq_nil_iff]
          intro a ha
          rcases List.mem_cons.mp ha with he | hm
          · subst he
            exact fun hc => absurd (by simpa using hc : a.potential = p)
              (by rw [← hxp]; exact ne_of_lt hylt)
          · exact fun hc => absurd (by simpa using hc : a.potential = p)
              (by rw [← hxp]; exact ne_of_lt (lt_of_le_of_lt (hy a hm) hylt))
        simp [List.filter_cons, hqx, hfy]
      · simp [List.filter_cons, hqx]

/-- The insertion sort produces a potential-descending list. -/
theorem sortDescAux_pairwise :
    ∀ (l acc : List Signal),
      List.Pairwise (fun a b => b.potential ≤ a.potential) acc →
      List.Pairwise (fun a b => b.potential ≤ a.potential) (sortDescAux acc l) := by
  intro l
  induction l with
  | nil => intro acc h; simpa [sortDescAux] using h
  | cons x xs ih =>
    intro acc h
    simp only [sortDescAux]
    exact ih _ (insDesc_pairwise x acc h)

/-- The insertion sort is stable: for every potential value, the items with
that potential appear in their original relative order. -/
theorem sortDescAux_filter (p : Rat) :
    ∀ (l acc : List Signal),
      List.Pairwise (fun a b => b.potential ≤ a.potential) acc →
      (sortDescAux acc l).filter (fun s => s.potential == p) =
        acc.filter (fun s => s.potential == p) ++ l.filter (fun s => s.potential == p) := by
  intro l
  induction l with
  | nil => intro acc h; simp [sortDescAux]
  | cons x xs ih =>
    intro acc h
    simp only [sortDescAux]
    rw [ih _ (insDesc_pairwise x acc h), insDesc_filter p x acc h]
    by_cases hqx : (x.potential == p) = true <;> simp [List.filter_cons, hqx]

/-- C4.  The listing formatter sorts by potential descending (stable: every
equal-potential class keeps its original relative order), renders each item
as name (code) — signed potential with exactly two decimals, with a leading
plus for strictly positive values, the minus carried by negative values and
zero unsigned; on the specification's example bucket with potentials
[5.0, -2.0, 10.0] the rendered order is +10.00%, +5.00%, -2.00%. -/
theorem C4_format_listing :
    (∀ items : List Signal,
        List.Pairwise (fun a b => b.potential ≤ a.potential) (sortDesc items)) ∧
    (∀ (items : List Signal) (p : Rat),
        (sortDesc items).filter (fun s => s.potential == p) =
          items.filter (fun s => s.potential == p)) ∧
    format_items_sorted c4bucket =
      "Gamma (CCC) — +10.00%\nAlpha (AAA) — +5.00%\nBeta (BBB) — -2.00%" ∧
    signOf 0 ++ fmt2 0 = "0.00" := by
  refine ⟨?_, ?_, by decide, by decide⟩
  · intro items
    exact sortDescAux_pairwise items [] List.Pairwise.nil
  · intro items p
    simpa using sortDescAux_filter p items [] List.Pairwise.nil

/-! ## Properties of the companion pipeline's persistence -/

section UpsertProofs

variable {R K : Type} [DecidableEq K] [DecidableEq R] (key : R → K)

/-- An upsert whose key is already present inserts nothing and keeps the collection size. -/
theorem update_one_not_upserted :
    ∀ (coll : List (StoredDoc R)) (d : StoredDoc R), hasKey key coll (key d.data) →
      (update_one key coll d).2.1 = false ∧ (update_one key coll d).1.length = coll.length := by
  intro coll
  induction coll with
  | nil =>
    intro d h
    rcases h with ⟨c, hc, _⟩
    simp at hc
  | cons c cs ih =>
    intro d h
    simp only [update_one]
    by_cases he : key c.data = key d.data
    · rw [if_pos he]
      simp
    · rw [if_neg he]
      have h2 : hasKey key cs (key d.data) := by
        rcases h with ⟨c2, hc2, hk⟩
        rcases List.mem_cons.mp hc2 with he2 | hm
        · exact absurd (he2 ▸ hk) he
        · exact ⟨c2, hm, hk⟩
      obtain ⟨h3, h4⟩ := ih d h2
      exact ⟨by simpa using h3, by simpa using h4⟩

/-- An upsert never removes a key from the collection. -/
theorem update_one_preserves :
    ∀ (coll : List (StoredDoc R)) (d : StoredDoc R) (k : K), hasKey key coll k →
      hasKey key (update_one key coll d).1 k := by
  intro coll
  induction coll with
  | nil =>
    intro d k h
    rcases h with ⟨c, hc, _⟩
    simp at hc
  | cons c cs ih =>
    intro d k h
    simp only [update_one]
    by_cases he : key c.data = key d.data
    · rw [if_pos he]
      rcases h with ⟨c2, hc2, hk⟩
      rcases List.mem_cons.mp hc2 with he2 | hm
      · refine ⟨d, by simp, ?_⟩
        rw [← he, ← he2]
        exact hk
      · exact ⟨c2, List.mem_cons_of_mem _ hm, hk⟩
    · rw [if_neg he]
      rcases h with ⟨c2, hc2, hk⟩
      rcases List.mem_cons.mp hc2 with he2 | hm
      · exact ⟨c, by simp, he2 ▸ hk⟩
      · obtain ⟨c3, hc3, hk3⟩ := ih d k ⟨c2, hm, hk⟩
        exact ⟨c3, by simpa using List.mem_cons_of_mem c hc3, hk3⟩

/-- After an upsert the target key is present. -/
theorem update_one_inserts_key :
    ∀ (coll : List (StoredDoc R)) (d : StoredDoc R),
      hasKey key (update_one key coll d).1 (key d.data) := by
  intro coll
  induction coll with
  | nil => intro d; exact ⟨d, by simp [update_one], rfl⟩
  | cons c cs ih =>
    intro d
    simp only [update_one]
    by_cases he : key c.data = key d.data
    · rw [if_pos he]
      exact ⟨d, by simp, rfl⟩
    · rw [if_neg he]
      obtain ⟨c3, hc3, hk3⟩ := ih d
      exact ⟨c3, by simpa using List.mem_cons_of_mem c hc3, hk3⟩

/-- Every document after an upsert is the upserted document or an old one. -/
theorem update_one_docs :
    ∀ (coll : List (StoredDoc R)) (d c : StoredDoc R),
      c ∈ (update_one key coll d).1 → c = d ∨ c ∈ coll := by
  intro coll
  induction coll with
  | nil =>
    intro d c hc
    simp [update_one] at hc
    exact Or.inl hc
  | cons c0 cs ih =>
    intro d c hc
    simp only [update_one] at hc
    by_cases he : key c0.data = key d.data
    · rw [if_pos he] at hc
      rcases List.mem_cons.mp hc with h | h
      · exact Or.inl h
      · exact Or.inr (List.mem_cons_of_mem _ h)
    · rw [if_neg he] at hc
      rcases List.mem_cons.mp (by simpa using hc) with h | h
      · exact Or.inr (h ▸ List.mem_cons_self c0 cs)
      · rcases ih d c h with h2 | h2
        · exact Or.inl h2
        · exact Or.inr (List.mem_cons_of_mem _ h2)

/-- An upsert that matches a document different from the new one registers as a modification. -/
theorem update_one_modified :
    ∀ (coll : List (StoredDoc R)) (d : StoredDoc R), hasKey key coll (key d.data) →
      (∀ c ∈ coll, key c.data = key d.data → c ≠ d) →
      (update_one key coll d).2.2 = true := by
  intro coll
  induction coll with
  | nil =>
    intro d h _
    rcases h with ⟨c, hc, _⟩
    simp at hc
  | cons c cs ih =>
    intro d h hall
    simp only [update_one]
    by_cases he : key c.data = key d.data
    · rw [if_pos he]
      simpa using hall c (by simp) he
    · rw [if_neg he]
      have h2 : hasKey key cs (key d.data) := by
        rcases h with ⟨c2, hc2, hk⟩
        rcases List.mem_cons.mp hc2 with he2 | hm
        · exact absurd (he2 ▸ hk) he
        · exact ⟨c2, hm, hk⟩
      simpa using ih d h2 (fun c2 hm => hall c2 (List.mem_cons_of_mem _ hm))

/-- Saving a batch never removes keys. -/
theorem saveAll_preserves (ts : Nat) :
    ∀ (recs : List R) (coll : List (StoredDoc R)) (k : K), hasKey key coll k →
      hasKey key (saveAll key ts coll recs).1 k := by
  intro recs
  induction recs with
  | nil => intro coll k h; simpa [saveAll] using h
  | cons r rs ih =>
    intro coll k h
    simp only [saveAll]
    exact ih _ k (update_one_preserves key coll _ k h)

/-- After saving a batch, every record of the batch has its key in the collection. -/
theorem saveAll_haskey (ts : Nat) :
    ∀ (recs : List R) (coll : List (StoredDoc R)) (r : R), r ∈ recs →
      hasKey key (saveAll key ts coll recs).1 (key r) := by
  intro recs
  induction recs with
  | nil => intro coll r h; simp at h
  | cons r2 rs ih =>
    intro coll r hm
    simp only [saveAll]
    rcases List.mem_cons.mp hm with he | hmem
    · subst he
      exact saveAll_preserves key ts rs _ (key r)
        (update_one_inserts_key key coll ⟨r, ts⟩)
    · exact ih _ r hmem

/-- Every document after a save is an old one or carries the run timestamp. -/
theorem saveAll_ts (ts : Nat) :
    ∀ (recs : List R) (coll : List (StoredDoc R)) (c : StoredDoc R),
      c ∈ (saveAll key ts coll recs).1 → c ∈ coll ∨ c.scrapedAt = ts := by
  intro recs
  induction recs with
  | nil => intro coll c h; exact Or.inl (by simpa [saveAll] using h)
  | cons r rs ih =>
    intro coll c h
    simp only [saveAll] at h
    rcases ih _ c h with h2 | h2
    · rcases update_one_docs key coll ⟨r, ts⟩ c h2 with h3 | h3
      · exact Or.inr (by rw [h3])
      · exact Or.inl h3
    · exact Or.inr h2

/-- A second run over records whose keys are all present, against a collection of older-stamped documents, inserts nothing, keeps the collection size, and counts every operation as an update. -/
theorem saveAll_second_run (ts2 : Nat) :
    ∀ (recs : List R) (coll : List (StoredDoc R)) (done : List R),
      recs.Nodup → (∀ r ∈ recs, r ∉ done) →
      (∀ r ∈ recs, hasKey key coll (key r)) →
      (∀ c ∈ coll, c.scrapedAt ≠ ts2 ∨ c.data ∈ done) →
      (saveAll key ts2 coll recs).2.1 = 0 ∧
      (saveAll key ts2 coll recs).1.length = coll.length ∧
      (saveAll key ts2 coll recs).2.2 = recs.length := by
  intro recs
  induction recs with
  | nil => intro coll done _ _ _ _; simp [saveAll]
  | cons r rs ih =>
    intro coll done hnd hdone hkeys hinv
    obtain ⟨hrns, hndrs⟩ := List.nodup_cons.mp hnd
    have hk : hasKey key coll (key r) := hkeys r (by simp)
    have hup := update_one_not_upserted key coll ⟨r, ts2⟩ hk
    have hmod : (update_one key coll ⟨r, ts2⟩).2.2 = true := by
      apply update_one_modified key coll ⟨r, ts2⟩ hk
      intro c hc hkc heq
      rcases hinv c hc with hts | hdn
      · exact hts (by rw [heq])
      · rw [heq] at hdn
        exact hdone r (by simp) hdn
    have hdone2 : ∀ r2 ∈ rs, r2 ∉ (r :: done) := by
      intro r2 hm
      simp only [List.mem_cons, not_or]
      exact ⟨fun he => hrns (he ▸ hm), hdone r2 (List.mem_cons_of_mem _ hm)⟩
    have hkeys2 : ∀ r2 ∈ rs, hasKey key (update_one key coll ⟨r, ts2⟩).1 (key r2) :=
      fun r2 hm => update_one_preserves key coll _ _ (hkeys r2 (List.mem_cons_of_mem _ hm))
    have hinv2 : ∀ c ∈ (update_one key coll ⟨r, ts2⟩).1,
        c.scrapedAt ≠ ts2 ∨ c.data ∈ (r :: done) := by
      intro c hc
      rcases update_one_docs key coll ⟨r, ts2⟩ c hc with he | hm
      · exact Or.inr (by rw [he]; simp)
      · rcases hinv c hm with h | h
        · exact Or.inl h
        · exact Or.inr (List.mem_cons_of_mem _ h)
    obtain ⟨i0, ilen, iupd⟩ := ih _ (r :: done) hndrs hdone2 hkeys2 hinv2
    refine ⟨?_, ?_, ?_⟩
    · simp only [saveAll]
      rw [hup.1, i0]
      simp
    · simp only [saveAll]
      rw [ilen, hup.2]
    · simp only [saveAll]
      rw [hmod, iupd]
      simp [Nat.add_comm]

end UpsertProofs

/-- Running the save pipeline twice over the same duplicate-free records with distinct run timestamps inserts zero records on the second run: every operation matches by natural key and registers as an update. -/
theorem saveAll_twice {R K : Type} [DecidableEq K] [DecidableEq R] (key : R → K)
    (ts1 ts2 : Nat) (recs : List R) (hnd : recs.Nodup) (hts : ts1 ≠ ts2) :
    (saveAll key ts2 (saveAll key ts1 [] recs).1 recs).2.1 = 0 ∧
    (saveAll key ts2 (saveAll key ts1 [] recs).1 recs).1.length =
      (saveAll key ts1 [] recs).1.length ∧
    (saveAll key ts2 (saveAll key ts1 [] recs).1 recs).2.2 = recs.length := by
  apply saveAll_second_run key ts2 recs _ [] hnd (by simp)
    (fun r hm => saveAll_haskey key ts1 recs [] r hm)
  intro c hc
  rcases saveAll_ts key ts1 recs [] c hc with h | h
  · simp at h
  · exact Or.inl (by rw [h]; exact hts)

/-- C8.  Companion-pipeline persistence is idempotent under
upsert-by-natural-key: for each of the three record kinds, running the save
operation twice against identical source data (with the two runs carrying
distinct capture timestamps) inserts zero net new records on the second run
— every second-run operation matches an existing record by its natural key
(code; (company_code, name); (company_code, metric)) and registers as an
update, not an insert. -/
theorem C8_upsert_idempotent :
    (∀ (ts1 ts2 : Nat) (recs : List CompanyRec), recs.Nodup → ts1 ≠ ts2 →
        (save_companies ts2 (save_companies ts1 [] recs).1 recs).2.1 = 0 ∧
        (save_companies ts2 (save_companies ts1 [] recs).1 recs).1.length =
          (save_companies ts1 [] recs).1.length ∧
        (save_companies ts2 (save_companies ts1 [] recs).1 recs).2.2 = recs.length) ∧
    (∀ (ts1 ts2 : Nat) (recs : List ShareholderRec), recs.Nodup → ts1 ≠ ts2 →
        (save_shareholders ts2 (save_shareholders ts1 [] recs).1 recs).2.1 = 0 ∧
        (save_shareholders ts2 (save_shareholders ts1 [] recs).1 recs).1.length =
          (save_shareholders ts1 [] recs).1.length ∧
        (save_shareholders ts2 (save_shareholders ts1 [] recs).1 recs).2.2 = recs.length) ∧
    (∀ (ts1 ts2 : Nat) (recs : List FinancialRec), recs.Nodup → ts1 ≠ ts2 →
        (save_financials ts2 (save_financials ts1 [] recs).1 recs).2.1 = 0 ∧
        (save_financials ts2 (save_financials ts1 [] recs).1 recs).1.length =
          (save_financials ts1 [] recs).1.length ∧
        (save_financials ts2 (save_financials ts1 [] recs).1 recs).2.2 = recs.length) :=
  by
  refine ⟨fun ts1 ts2 recs hnd hts => ?_, fun ts1 ts2 recs hnd hts => ?_,
    fun ts1 ts2 recs hnd hts => ?_⟩
  · unfold save_companies
    exact saveAll_twice (fun c => c.code) ts1 ts2 recs hnd hts
  · unfold save_shareholders
    exact saveAll_twice (fun s => (s.company_code, s.name)) ts1 ts2 recs hnd hts
  · unfold save_financials
    exact saveAll_twice (fun f => (f.company_code, f.metric)) ts1 ts2 recs hnd hts

/-- Witness for C8 on concrete one-record batches. -/
theorem C8_upsert_idempotent_witness :
    (save_companies 2 (save_companies 1 [] [coA]).1 [coA]).2.1 = 0 ∧
    (save_shareholders 2 (save_shareholders 1 [] [shA]).1 [shA]).2.1 = 0 ∧
    (save_financials 2 (save_financials 1 [] [fiA]).1 [fiA]).2.1 = 0 :=
  ⟨(C8_upsert_idempotent.1 1 2 [coA] (by simp) (by decide)).1,
   (C8_upsert_idempotent.2.1 1 2 [shA] (by simp) (by decide)).1,
   (C8_upsert_idempotent.2.2 1 2 [fiA] (by simp) (by decide)).1⟩
